import Mathlib

/-!
Verification of the galarie frontend tag-filter and media-url utilities.

The definitions below are shallow embeddings of the TypeScript source files
`frontend/src/hooks/useTagFilters.ts`, `frontend/src/hooks/usePersistedFilters.ts`,
`frontend/src/utils/mediaUrls.ts`, the media api client (`fetchMedia`) and the
`MediaSummary` type from `types/media.ts`. JavaScript strings are modelled as
Lean `String`, JavaScript arrays as `List`, and JavaScript objects
(`Record<K, V>`) as insertion-ordered association lists. `toLowerCase` is
modelled on the ASCII range (the only range the parsed grammar distinguishes).
-/

/-! ## JavaScript string primitives -/

/-- Characters removed by JavaScript `String.prototype.trim`, and matched by
the `\s` regex class: tab, LF, VT, FF, CR, space, NBSP, the Unicode space
separators, the line separators, and the BOM. -/
def jsWhitespaceChars : List Char :=
  [Char.ofNat 9, Char.ofNat 10, Char.ofNat 11, Char.ofNat 12, Char.ofNat 13,
   Char.ofNat 32, Char.ofNat 160, Char.ofNat 0x1680, Char.ofNat 0x2000,
   Char.ofNat 0x2001, Char.ofNat 0x2002, Char.ofNat 0x2003, Char.ofNat 0x2004,
   Char.ofNat 0x2005, Char.ofNat 0x2006, Char.ofNat 0x2007, Char.ofNat 0x2008,
   Char.ofNat 0x2009, Char.ofNat 0x200A, Char.ofNat 0x2028, Char.ofNat 0x2029,
   Char.ofNat 0x202F, Char.ofNat 0x205F, Char.ofNat 0x3000, Char.ofNat 0xFEFF]

/-- Whether a character is JavaScript whitespace. -/
def isJsWhitespace (c : Char) : Bool :=
  jsWhitespaceChars.contains c

/-- JavaScript `String.prototype.trim`: strip whitespace from both ends. -/
def jsTrim (s : String) : String :=
  String.mk (((s.data.dropWhile isJsWhitespace).reverse.dropWhile isJsWhitespace).reverse)

/-- JavaScript `String.prototype.toLowerCase` on one character, modelled on
ASCII: the uppercase letters (code points 65 to 90) map to lowercase. -/
def jsCharToLower (c : Char) : Char :=
  if 65 ≤ c.toNat ∧ c.toNat ≤ 90 then Char.ofNat (c.toNat + 32) else c

/-- JavaScript `String.prototype.toLowerCase`, character by character. -/
def jsToLower (s : String) : String :=
  String.mk (s.data.map jsCharToLower)

/-- The test of the regex `/[a-z0-9]/i` from `useTagFilters.ts` line 13 on one
character: an ASCII letter (either case) or digit. -/
def isTagAlphanumeric (c : Char) : Bool :=
  (97 ≤ c.toNat && c.toNat ≤ 122) || (65 ≤ c.toNat && c.toNat ≤ 90) ||
    (48 ≤ c.toNat && c.toNat ≤ 57)

/-- `HAS_ALPHANUMERIC.test(token)`: some character of the string is an ASCII
letter or digit. -/
def hasAlphanumeric (s : String) : Bool :=
  s.data.any isTagAlphanumeric

/-- Prepend a character to the first piece of a piece list. -/
def consPiece (c : Char) : List (List Char) → List (List Char)
  | [] => [[c]]
  | piece :: pieces => (c :: piece) :: pieces

/-- JavaScript `String.prototype.split` on a character class: cut the character
list at every delimiter character, keeping empty pieces. This models both
`split(",")` and, after discarding empty pieces, `split(/[,\s]+/)`. -/
def splitChars (p : Char → Bool) : List Char → List (List Char)
  | [] => [[]]
  | c :: rest => if p c then [] :: splitChars p rest else consPiece c (splitChars p rest)

/-! ## Basic lemmas about the primitives -/

theorem char_toNat_ofNat (n : Nat) (h : Nat.isValidChar n) : (Char.ofNat n).toNat = n := by
  unfold Char.ofNat
  rw [dif_pos h]
  rfl

theorem jsCharToLower_toNat_of_upper (c : Char) (h : 65 ≤ c.toNat ∧ c.toNat ≤ 90) :
    (jsCharToLower c).toNat = c.toNat + 32 := by
  unfold jsCharToLower
  rw [if_pos h]
  exact char_toNat_ofNat _ (Or.inl (by omega))

theorem jsCharToLower_eq_of_not_upper (c : Char) (h : ¬(65 ≤ c.toNat ∧ c.toNat ≤ 90)) :
    jsCharToLower c = c := by
  rw [jsCharToLower]
  exact if_neg h

theorem jsCharToLower_idem (c : Char) : jsCharToLower (jsCharToLower c) = jsCharToLower c := by
  by_cases h : 65 ≤ c.toNat ∧ c.toNat ≤ 90
  · have ht : (jsCharToLower c).toNat = c.toNat + 32 := jsCharToLower_toNat_of_upper c h
    exact jsCharToLower_eq_of_not_upper _ (by omega)
  · rw [jsCharToLower_eq_of_not_upper c h]
    exact jsCharToLower_eq_of_not_upper c h

theorem jsToLower_idem (s : String) : jsToLower (jsToLower s) = jsToLower s := by
  have hf : jsCharToLower ∘ jsCharToLower = jsCharToLower := funext jsCharToLower_idem
  unfold jsToLower
  congr 1
  show (s.data.map jsCharToLower).map jsCharToLower = s.data.map jsCharToLower
  rw [List.map_map, hf]

theorem isTagAlphanumeric_jsCharToLower (c : Char) :
    isTagAlphanumeric (jsCharToLower c) = isTagAlphanumeric c := by
  by_cases h : 65 ≤ c.toNat ∧ c.toNat ≤ 90
  · have ht : (jsCharToLower c).toNat = c.toNat + 32 := jsCharToLower_toNat_of_upper c h
    unfold isTagAlphanumeric
    rw [ht, Bool.eq_iff_iff]
    simp only [Bool.or_eq_true, Bool.and_eq_true, decide_eq_true_eq]
    omega
  · rw [jsCharToLower_eq_of_not_upper c h]

theorem hasAlphanumeric_jsToLower (s : String) :
    hasAlphanumeric (jsToLower s) = hasAlphanumeric s := by
  have hf : isTagAlphanumeric ∘ jsCharToLower = isTagAlphanumeric :=
    funext isTagAlphanumeric_jsCharToLower
  unfold hasAlphanumeric jsToLower
  show (s.data.map jsCharToLower).any isTagAlphanumeric = s.data.any isTagAlphanumeric
  rw [List.any_map, hf]

theorem hasAlphanumeric_ne_empty (t : String) (h : hasAlphanumeric t = true) : t ≠ "" := by
  intro he
  subst he
  simp [hasAlphanumeric] at h

theorem splitChars_ne_nil (p : Char → Bool) (cs : List Char) : splitChars p cs ≠ [] := by
  induction cs with
  | nil => simp [splitChars]
  | cons c rest ih =>
    rw [splitChars]
    by_cases hp : p c
    · simp [hp]
    · rw [if_neg hp]
      rcases hsp : splitChars p rest with _ | ⟨q, qs⟩
      · exact absurd hsp ih
      · simp [consPiece]

theorem mem_splitChars_no_delim (p : Char → Bool) :
    ∀ (cs piece : List Char), piece ∈ splitChars p cs → ∀ c ∈ piece, p c = false := by
  intro cs
  induction cs with
  | nil =>
    intro piece hmem c hc
    simp [splitChars] at hmem
    subst hmem
    simp at hc
  | cons d rest ih =>
    intro piece hmem c hc
    rw [splitChars] at hmem
    by_cases hp : p d
    · rw [if_pos hp] at hmem
      rcases List.mem_cons.mp hmem with h | h
      · subst h
        simp at hc
      · exact ih piece h c hc
    · rw [if_neg hp] at hmem
      rcases hsp : splitChars p rest with _ | ⟨q, qs⟩
      · exact absurd hsp (splitChars_ne_nil p rest)
      · rw [hsp, consPiece] at hmem
        rcases List.mem_cons.mp hmem with h | h
        · subst h
          rcases List.mem_cons.mp hc with h1 | h1
          · subst h1
            simpa using hp
          · exact ih q (by rw [hsp]; exact List.mem_cons_self _ _) c h1
        · exact ih piece (by rw [hsp]; exact List.mem_cons_of_mem _ h) c hc

/-! ## The tag parser (`parseTagInput`, useTagFilters.ts lines 15 to 32) -/

/-- The comma-separated segments of the raw tag input: `raw.split(",")`. -/
def tagSegments (raw : String) : List String :=
  (splitChars (fun c => c == ',') raw.data).map String.mk

/-- Normalization applied to each segment: `token.trim().toLowerCase()`. -/
def normalizeTagToken (token : String) : String :=
  jsToLower (jsTrim token)

/-- One step of the `forEach` loop of `parseTagInput`: skip empty tokens,
tokens without an alphanumeric character, and tokens already seen (the `seen`
set holds exactly the pushed tokens, so it is modelled by membership in the
accumulator). -/
def parseTagStep (acc : List String) (token : String) : List String :=
  if token = "" then acc
  else if hasAlphanumeric token = false then acc
  else if token ∈ acc then acc
  else acc ++ [token]

/-- `parseTagInput` from useTagFilters.ts: empty input short-circuits to `[]`;
otherwise split on commas, normalize each token, and fold the steps above. -/
def parseTagInput (raw : String) : List String :=
  if raw = "" then []
  else ((tagSegments raw).map normalizeTagToken).foldl parseTagStep []

/-- Keep the first occurrence of every element, in order of first appearance.
This is the reference description of the deduplication the claims state. -/
def dedupFirst : List String → List String
  | [] => []
  | t :: rest => t :: dedupFirst (rest.filter (fun u => u != t))
termination_by l => l.length
decreasing_by
  simp only [List.length_cons]
  exact Nat.lt_succ_of_le (List.length_filter_le _ _)

theorem mem_dedupFirst (l : List String) (t : String) : t ∈ dedupFirst l ↔ t ∈ l := by
  induction l using dedupFirst.induct with
  | case1 => simp [dedupFirst]
  | case2 a rest ih =>
    rw [dedupFirst]
    constructor
    · intro h
      rcases List.mem_cons.mp h with h | h
      · subst h
        exact List.mem_cons_self _ _
      · rcases List.mem_filter.mp (ih.mp h) with ⟨hm, _⟩
        exact List.mem_cons_of_mem _ hm
    · intro h
      rcases List.mem_cons.mp h with h | h
      · subst h
        exact List.mem_cons_self _ _
      · by_cases he : t = a
        · subst he
          exact List.mem_cons_self _ _
        · exact List.mem_cons_of_mem _ (ih.mpr (List.mem_filter.mpr ⟨h, by simpa using he⟩))

theorem nodup_dedupFirst (l : List String) : (dedupFirst l).Nodup := by
  induction l using dedupFirst.induct with
  | case1 => simp [dedupFirst]
  | case2 a rest ih =>
    rw [dedupFirst]
    refine List.nodup_cons.mpr ⟨?_, ih⟩
    intro hmem
    rcases List.mem_filter.mp ((mem_dedupFirst _ _).mp hmem) with ⟨_, hne⟩
    simp at hne

theorem dedupFirst_nil : dedupFirst [] = [] := by
  rw [dedupFirst]

theorem dedupFirst_cons (t : String) (rest : List String) :
    dedupFirst (t :: rest) = t :: dedupFirst (rest.filter (fun u => u != t)) := by
  rw [dedupFirst]

theorem parseTagStep_of_not_alnum (acc : List String) (t : String)
    (h : hasAlphanumeric t = false) : parseTagStep acc t = acc := by
  unfold parseTagStep
  by_cases he : t = ""
  · rw [if_pos he]
  · rw [if_neg he, if_pos h]

theorem foldl_parseTagStep :
    ∀ (l acc : List String),
      l.foldl parseTagStep acc =
        acc ++ dedupFirst ((l.filter hasAlphanumeric).filter (fun u => decide (u ∉ acc))) := by
  intro l
  induction l with
  | nil =>
    intro acc
    simp [dedupFirst_nil]
  | cons t rest ih =>
    intro acc
    rw [List.foldl_cons]
    by_cases hA : hasAlphanumeric t
    · have hne : t ≠ "" := hasAlphanumeric_ne_empty t hA
      rw [List.filter_cons, if_pos hA, List.filter_cons]
      by_cases hmem : t ∈ acc
      · have hstep : parseTagStep acc t = acc := by
          unfold parseTagStep
          rw [if_neg hne, if_neg (by simp [hA]), if_pos hmem]
        rw [hstep, ih, if_neg (by simpa using hmem)]
      · have hstep : parseTagStep acc t = acc ++ [t] := by
          unfold parseTagStep
          rw [if_neg hne, if_neg (by simp [hA]), if_neg hmem]
        rw [hstep, ih, if_pos (by simpa using hmem), dedupFirst_cons]
        rw [List.append_assoc, List.singleton_append]
        congr 2
        rw [List.filter_filter, List.filter_filter, List.filter_filter]
        congr 1
        refine List.filter_congr ?_
        intro u _
        rw [Bool.eq_iff_iff]
        simp only [List.mem_append, List.mem_singleton, not_or, decide_eq_true_eq,
          Bool.and_eq_true, bne_iff_ne, ne_eq]
        tauto
    · rw [parseTagStep_of_not_alnum acc t (by simpa using hA), ih,
        List.filter_cons, if_neg hA]

theorem parseTagInput_eq_dedupFirst (raw : String) :
    parseTagInput raw =
      dedupFirst (((tagSegments raw).map normalizeTagToken).filter hasAlphanumeric) := by
  unfold parseTagInput
  by_cases h : raw = ""
  · rw [if_pos h]
    subst h
    have h1 : ((tagSegments "").map normalizeTagToken).filter hasAlphanumeric = ([] : List String) := by
      decide
    rw [h1, dedupFirst_nil]
  · rw [if_neg h, foldl_parseTagStep]
    simp

/-! ## Claims about the tag parser -/

/-- C1: for every input string, `parseTagInput` returns a list of tags (it is a
total function, so it never throws); a token that, after trimming, contains no
alphanumeric character is dropped from the output rather than failing the whole
parse, and every remaining token is still parsed normally, i.e. its normalized
form appears in the output. -/
theorem C1_parseTagInput_drops_invalid_keeps_rest (raw : String) :
    (∀ t ∈ parseTagInput raw, hasAlphanumeric t = true) ∧
    (∀ seg ∈ tagSegments raw, hasAlphanumeric (jsTrim seg) = true →
      normalizeTagToken seg ∈ parseTagInput raw) := by
  constructor
  · intro t ht
    rw [parseTagInput_eq_dedupFirst, mem_dedupFirst] at ht
    exact (List.mem_filter.mp ht).2
  · intro seg hseg hA
    rw [parseTagInput_eq_dedupFirst, mem_dedupFirst]
    refine List.mem_filter.mpr ⟨List.mem_map_of_mem _ hseg, ?_⟩
    rw [normalizeTagToken, hasAlphanumeric_jsToLower]
    exact hA

/-- Witness for C1: on the concrete input `"A,--,b"` the malformed segment
`"--"` is dropped while the segment `"b"` survives. -/
theorem C1_witness : "b" ∈ parseTagInput "A,--,b" := by
  have h := (C1_parseTagInput_drops_invalid_keeps_rest "A,--,b").2 "b" (by decide) (by decide)
  have he : normalizeTagToken "b" = "b" := by decide
  rw [he] at h
  exact h

/-- C2: the list returned by `parseTagInput` holds each normalized tag at most
once, and equals the first-occurrence deduplication (`dedupFirst`) of the
normalized comma segments that contain an alphanumeric character, so the output
order is the order in which the distinct tokens first appeared in the input. -/
theorem C2_parseTagInput_nodup_first_occurrence (raw : String) :
    (parseTagInput raw).Nodup ∧
    parseTagInput raw =
      dedupFirst (((tagSegments raw).map normalizeTagToken).filter hasAlphanumeric) := by
  refine ⟨?_, parseTagInput_eq_dedupFirst raw⟩
  rw [parseTagInput_eq_dedupFirst]
  exact nodup_dedupFirst _

/-- C8 counterexample: the tag parser does not split on underscores and does
not discard the extension; the filename-shaped input `"a_b.png"` stays one
token, while commas do split. -/
theorem C8_counterexample :
    parseTagInput "a_b.png" = ["a_b.png"] ∧ parseTagInput "a_b.png" ≠ ["a", "b"] ∧
    parseTagInput "a,b" = ["a", "b"] := by
  refine ⟨by decide, by decide, by decide⟩

/-- C8 amended: the tag parser splits its input on the fixed delimiter comma
and discards nothing else (no extension handling): a string is in the output
exactly when it contains an alphanumeric character and is the normalization of
one of the comma-separated parts of the raw input. -/
theorem C8_parseTagInput_splits_on_comma (raw t : String) :
    t ∈ parseTagInput raw ↔
      hasAlphanumeric t = true ∧ ∃ seg ∈ tagSegments raw, normalizeTagToken seg = t := by
  rw [parseTagInput_eq_dedupFirst, mem_dedupFirst]
  constructor
  · intro h
    rcases List.mem_filter.mp h with ⟨hm, hA⟩
    rcases List.mem_map.mp hm with ⟨seg, hseg, he⟩
    exact ⟨hA, seg, hseg, he⟩
  · rintro ⟨hA, seg, hseg, he⟩
    exact List.mem_filter.mpr ⟨List.mem_map.mpr ⟨seg, hseg, he⟩, hA⟩

/-- Witness for the amended C8: applied at the concrete input `"x,y.gif"`, the
characterization puts `"y.gif"` in the output. -/
theorem C8_witness : "y.gif" ∈ parseTagInput "x,y.gif" := by
  refine (C8_parseTagInput_splits_on_comma "x,y.gif" "y.gif").mpr ?_
  refine ⟨by decide, "y.gif", by decide, by decide⟩

/-! ## The attribute parser (`parseAttributeInput`, useTagFilters.ts lines 34 to 69) -/

/-- A delimiter of the token split regex `/[,\s]+/`: a comma or whitespace. -/
def isAttrDelim (c : Char) : Bool :=
  c == ',' || isJsWhitespace c

/-- The tokens handed to the `forEach` loop of `parseAttributeInput`:
`raw.split(/[,\s]+/).map((token) => token.trim()).filter(Boolean)`. Splitting
on single delimiter characters and then dropping empty tokens yields the same
list as the regex split with `+`. -/
def attrTokens (raw : String) : List String :=
  (((splitChars isAttrDelim raw.data).map String.mk).map jsTrim).filter (fun t => t ≠ "")

/-- The per-token parse of `parseAttributeInput` (lines 47 to 59): find the
first colon (`token.indexOf(":")`); a missing colon, a colon first or last
(`delimiterIndex <= 0 || delimiterIndex === token.length - 1`) is invalid;
otherwise the key is the trimmed lowercased text before the colon
(`token.slice(0, delimiterIndex)`), the value the trimmed lowercased text after
it (`token.slice(delimiterIndex + 1)`), and both must be non-empty. -/
def attrTokenKV (token : String) : Option (String × String) :=
  let before := token.data.takeWhile (fun c => !(c == ':'))
  match token.data.dropWhile (fun c => !(c == ':')) with
  | [] => none
  | _ :: valueChars =>
    if before = [] then none
    else if valueChars = [] then none
    else
      let key := jsToLower (jsTrim (String.mk before))
      let value := jsToLower (jsTrim (String.mk valueChars))
      if key = "" ∨ value = "" then none
      else some (key, value)

/-- The values stored for a key in the list-valued attribute map:
`attributes[key] ?? []`. -/
def lookupValues (attributes : List (String × List String)) (key : String) : List String :=
  match attributes.lookup key with
  | some vs => vs
  | none => []

/-- `attributes[key] = [...(attributes[key] ?? []), value]`: append the value
to the existing list of the key (keeping the position of the key) or add the
key at the end. -/
def attrInsert : List (String × List String) → String → String → List (String × List String)
  | [], key, value => [(key, [value])]
  | (k, vs) :: rest, key, value =>
    if k = key then (k, vs ++ [value]) :: rest else (k, vs) :: attrInsert rest key value

/-- The result record of `parseAttributeInput`. -/
structure AttributeParseResult where
  attributes : List (String × List String)
  invalid : List String
deriving Repr, DecidableEq

/-- One step of the `forEach` loop of `parseAttributeInput`: invalid tokens are
pushed onto `invalid`; duplicate values for a key are skipped (`valuesSeen`
holds exactly the values already stored, so it is modelled by membership in the
stored list); fresh values are appended to the list of their key. -/
def attrStep (st : AttributeParseResult) (token : String) : AttributeParseResult :=
  match attrTokenKV token with
  | none => { st with invalid := st.invalid ++ [token] }
  | some (key, value) =>
    if value ∈ lookupValues st.attributes key then st
    else { st with attributes := attrInsert st.attributes key value }

/-- `parseAttributeInput` from useTagFilters.ts: empty input short-circuits to
the empty result; otherwise fold the steps above over the tokens. -/
def parseAttributeInput (raw : String) : AttributeParseResult :=
  if raw = "" then { attributes := [], invalid := [] }
  else (attrTokens raw).foldl attrStep { attributes := [], invalid := [] }
/-! ## Lemmas about the attribute parser -/

theorem lookupValues_nil (k : String) : lookupValues [] k = [] := by
  simp [lookupValues, List.lookup]

theorem lookupValues_cons (k0 : String) (vs : List String)
    (rest : List (String × List String)) (k : String) :
    lookupValues ((k0, vs) :: rest) k = if k = k0 then vs else lookupValues rest k := by
  by_cases h : k = k0
  · subst h
    simp [lookupValues, List.lookup]
  · have hb : (k == k0) = false := by simpa using h
    simp [lookupValues, List.lookup, hb, h]

theorem lookupValues_attrInsert (m : List (String × List String)) (key value k : String) :
    lookupValues (attrInsert m key value) k =
      if k = key then lookupValues m key ++ [value] else lookupValues m k := by
  induction m with
  | nil =>
    rw [attrInsert, lookupValues_cons]
    by_cases h : k = key <;> simp [h, lookupValues_nil]
  | cons p rest ih =>
    obtain ⟨k0, vs⟩ := p
    by_cases hk : k0 = key
    · subst hk
      rw [attrInsert, if_pos rfl]
      simp only [lookupValues_cons]
      by_cases h : k = k0 <;> simp [h]
    · rw [attrInsert, if_neg hk]
      simp only [lookupValues_cons, ih]
      by_cases h1 : k = k0 <;> by_cases h2 : k = key
      · exact absurd (h1.symm.trans h2) hk
      · simp [h1, h2, hk]
      · have h3 : ¬(key = k0) := fun he => h1 (h2.trans he)
        simp [h1, h2, h3]
      · simp [h1, h2]

theorem mem_lookupValues_attrStep (st : AttributeParseResult) (t k v : String) :
    v ∈ lookupValues (attrStep st t).attributes k ↔
      v ∈ lookupValues st.attributes k ∨ attrTokenKV t = some (k, v) := by
  rcases ht : attrTokenKV t with _ | ⟨key, value⟩
  · simp only [attrStep, ht]
    simp
  · simp only [attrStep, ht]
    by_cases hdup : value ∈ lookupValues st.attributes key
    · rw [if_pos hdup]
      constructor
      · exact fun h => Or.inl h
      · rintro (h | h)
        · exact h
        · rw [Option.some.injEq, Prod.mk.injEq] at h
          rw [← h.1, ← h.2]
          exact hdup
    · rw [if_neg hdup]
      show v ∈ lookupValues (attrInsert st.attributes key value) k ↔ _
      rw [lookupValues_attrInsert]
      by_cases hk : k = key
      · subst hk
        rw [if_pos rfl]
        simp only [List.mem_append, List.mem_singleton, Option.some.injEq, Prod.mk.injEq,
          true_and]
        constructor
        · rintro (h | h)
          · exact Or.inl h
          · exact Or.inr h.symm
        · rintro (h | h)
          · exact Or.inl h
          · exact Or.inr h.symm
      · rw [if_neg hk]
        simp only [Option.some.injEq, Prod.mk.injEq]
        constructor
        · exact fun h => Or.inl h
        · rintro (h | ⟨hk2, _⟩)
          · exact h
          · exact absurd hk2.symm hk

theorem attrStep_invalid (st : AttributeParseResult) (t : String) :
    (attrStep st t).invalid =
      if attrTokenKV t = none then st.invalid ++ [t] else st.invalid := by
  rcases ht : attrTokenKV t with _ | ⟨key, value⟩
  · simp only [attrStep, ht]
    simp
  · simp only [attrStep, ht]
    by_cases hdup : value ∈ lookupValues st.attributes key
    · rw [if_pos hdup]
      simp
    · rw [if_neg hdup]
      simp

theorem attr_foldl_mem (l : List String) :
    ∀ (st : AttributeParseResult) (k v : String),
      v ∈ lookupValues ((l.foldl attrStep st).attributes) k ↔
        v ∈ lookupValues st.attributes k ∨ ∃ tok ∈ l, attrTokenKV tok = some (k, v) := by
  induction l with
  | nil =>
    intro st k v
    simp
  | cons t rest ih =>
    intro st k v
    rw [List.foldl_cons, ih, mem_lookupValues_attrStep]
    constructor
    · rintro ((h | h) | ⟨tok, hmem, htok⟩)
      · exact Or.inl h
      · exact Or.inr ⟨t, List.mem_cons_self _ _, h⟩
      · exact Or.inr ⟨tok, List.mem_cons_of_mem _ hmem, htok⟩
    · rintro (h | ⟨tok, hmem, htok⟩)
      · exact Or.inl (Or.inl h)
      · rcases List.mem_cons.mp hmem with he | he
        · subst he
          exact Or.inl (Or.inr htok)
        · exact Or.inr ⟨tok, he, htok⟩

theorem attr_foldl_invalid (l : List String) :
    ∀ (st : AttributeParseResult) (tok : String),
      tok ∈ (l.foldl attrStep st).invalid ↔
        tok ∈ st.invalid ∨ (tok ∈ l ∧ attrTokenKV tok = none) := by
  induction l with
  | nil =>
    intro st tok
    simp
  | cons t rest ih =>
    intro st tok
    rw [List.foldl_cons, ih, attrStep_invalid]
    by_cases ht : attrTokenKV t = none
    · rw [if_pos ht]
      simp only [List.mem_append, List.mem_cons, List.not_mem_nil, or_false]
      constructor
      · rintro ((h | h) | h)
        · exact Or.inl h
        · subst h
          exact Or.inr ⟨Or.inl rfl, ht⟩
        · exact Or.inr ⟨Or.inr h.1, h.2⟩
      · rintro (h | ⟨(he | hm), hn⟩)
        · exact Or.inl (Or.inl h)
        · subst he
          exact Or.inl (Or.inr rfl)
        · exact Or.inr ⟨hm, hn⟩
    · rw [if_neg ht]
      simp only [List.mem_cons]
      constructor
      · rintro (h | h)
        · exact Or.inl h
        · exact Or.inr ⟨Or.inr h.1, h.2⟩
      · rintro (h | ⟨(he | hm), hn⟩)
        · exact Or.inl h
        · subst he
          exact absurd hn ht
        · exact Or.inr ⟨hm, hn⟩

theorem mem_lookupValues_parseAttributeInput (raw k v : String) :
    v ∈ lookupValues (parseAttributeInput raw).attributes k ↔
      ∃ tok ∈ attrTokens raw, attrTokenKV tok = some (k, v) := by
  unfold parseAttributeInput
  by_cases h : raw = ""
  · rw [if_pos h]
    subst h
    have he : attrTokens "" = [] := by decide
    rw [he]
    simp [lookupValues_nil]
  · rw [if_neg h, attr_foldl_mem]
    simp [lookupValues_nil]

theorem mem_invalid_parseAttributeInput (raw tok : String) :
    tok ∈ (parseAttributeInput raw).invalid ↔
      tok ∈ attrTokens raw ∧ attrTokenKV tok = none := by
  unfold parseAttributeInput
  by_cases h : raw = ""
  · rw [if_pos h]
    subst h
    have he : attrTokens "" = [] := by decide
    rw [he]
    simp
  · rw [if_neg h, attr_foldl_invalid]
    simp

theorem mem_of_mem_dropWhile {α : Type} (p : α → Bool) :
    ∀ (l : List α) (c : α), c ∈ l.dropWhile p → c ∈ l := by
  intro l
  induction l with
  | nil =>
    intro c h
    simp at h
  | cons a as ih =>
    intro c h
    rw [List.dropWhile_cons] at h
    by_cases hp : p a = true
    · rw [if_pos hp] at h
      exact List.mem_cons_of_mem _ (ih c h)
    · rw [if_neg hp] at h
      exact h

theorem mem_of_mem_takeWhile {α : Type} (p : α → Bool) :
    ∀ (l : List α) (c : α), c ∈ l.takeWhile p → c ∈ l := by
  intro l
  induction l with
  | nil =>
    intro c h
    simp at h
  | cons a as ih =>
    intro c h
    rw [List.takeWhile_cons] at h
    by_cases hp : p a = true
    · rw [if_pos hp] at h
      rcases List.mem_cons.mp h with he | hm
      · subst he
        exact List.mem_cons_self _ _
      · exact List.mem_cons_of_mem _ (ih c hm)
    · rw [if_neg hp] at h
      simp at h

theorem dropWhile_eq_self_of_all_false {α : Type} (p : α → Bool) (l : List α)
    (h : ∀ c ∈ l, p c = false) : l.dropWhile p = l := by
  cases l with
  | nil => rfl
  | cons a as =>
    rw [List.dropWhile_cons, h a (List.mem_cons_self _ _)]
    simp

theorem dropWhile_head_false {α : Type} (p : α → Bool) :
    ∀ (l : List α) (a : α) (as : List α), l.dropWhile p = a :: as → p a = false := by
  intro l
  induction l with
  | nil =>
    intro a as h
    simp at h
  | cons b bs ih =>
    intro a as h
    rw [List.dropWhile_cons] at h
    by_cases hp : p b = true
    · rw [if_pos hp] at h
      exact ih a as h
    · rw [if_neg hp] at h
      rw [List.cons.injEq] at h
      rw [← h.1]
      simpa using hp

theorem string_eq_empty_iff_data (s : String) : s = "" ↔ s.data = [] := by
  constructor
  · intro h
    rw [h]
  · intro h
    rcases s with ⟨d⟩
    have hd : d = [] := h
    rw [hd]

theorem jsTrim_eq_self (s : String) (h : ∀ c ∈ s.data, isJsWhitespace c = false) :
    jsTrim s = s := by
  unfold jsTrim
  rw [dropWhile_eq_self_of_all_false _ _ h,
    dropWhile_eq_self_of_all_false _ _ (fun c hc => h c (List.mem_reverse.mp hc)),
    List.reverse_reverse]

theorem jsToLower_ne_empty (s : String) (h : s ≠ "") : jsToLower s ≠ "" := by
  intro he
  apply h
  rw [string_eq_empty_iff_data] at he ⊢
  have hm : s.data.map jsCharToLower = [] := he
  cases hd : s.data with
  | nil => rfl
  | cons c cs =>
    rw [hd] at hm
    simp at hm

theorem mem_jsTrim_data (s : String) (c : Char) (h : c ∈ (jsTrim s).data) : c ∈ s.data := by
  unfold jsTrim at h
  change c ∈ ((s.data.dropWhile isJsWhitespace).reverse.dropWhile isJsWhitespace).reverse at h
  rw [List.mem_reverse] at h
  have h2 := mem_of_mem_dropWhile _ _ _ h
  rw [List.mem_reverse] at h2
  exact mem_of_mem_dropWhile _ _ _ h2

theorem mem_attrTokens_no_delim (raw tok : String) (h : tok ∈ attrTokens raw) :
    ∀ c ∈ tok.data, isAttrDelim c = false := by
  unfold attrTokens at h
  rcases List.mem_filter.mp h with ⟨hm, _⟩
  rcases List.mem_map.mp hm with ⟨s1, hs1, he1⟩
  rcases List.mem_map.mp hs1 with ⟨piece, hpiece, he2⟩
  intro c hc
  rw [← he1] at hc
  have hc2 : c ∈ s1.data := mem_jsTrim_data s1 c hc
  rw [← he2] at hc2
  exact mem_splitChars_no_delim _ _ piece hpiece c hc2

theorem mem_attrTokens_no_ws (raw tok : String) (h : tok ∈ attrTokens raw) :
    ∀ c ∈ tok.data, isJsWhitespace c = false := by
  intro c hc
  have hd := mem_attrTokens_no_delim raw tok h c hc
  unfold isAttrDelim at hd
  exact (Bool.or_eq_false_iff.mp hd).2

theorem attrTokenKV_eq_none_of_no_colon (tok : String)
    (hd : tok.data.dropWhile (fun c => !(c == ':')) = []) : attrTokenKV tok = none := by
  unfold attrTokenKV
  rw [hd]

theorem attrTokenKV_cons (tok : String) (c0 : Char) (vcs : List Char)
    (hd : tok.data.dropWhile (fun c => !(c == ':')) = c0 :: vcs) :
    attrTokenKV tok =
      (if tok.data.takeWhile (fun c => !(c == ':')) = [] then none
       else if vcs = [] then none
       else if jsToLower (jsTrim (String.mk (tok.data.takeWhile (fun c => !(c == ':'))))) = "" ∨
           jsToLower (jsTrim (String.mk vcs)) = "" then none
       else some (jsToLower (jsTrim (String.mk (tok.data.takeWhile (fun c => !(c == ':'))))),
           jsToLower (jsTrim (String.mk vcs)))) := by
  unfold attrTokenKV
  rw [hd]

theorem attrTokenKV_lower (tok k v : String) (h : attrTokenKV tok = some (k, v)) :
    jsToLower k = k ∧ jsToLower v = v := by
  rcases hd : tok.data.dropWhile (fun c => !(c == ':')) with _ | ⟨c0, vcs⟩
  · rw [attrTokenKV_eq_none_of_no_colon tok hd] at h
    simp at h
  · rw [attrTokenKV_cons tok c0 vcs hd] at h
    by_cases h1 : tok.data.takeWhile (fun c => !(c == ':')) = []
    · rw [if_pos h1] at h
      simp at h
    · rw [if_neg h1] at h
      by_cases h2 : vcs = []
      · rw [if_pos h2] at h
        simp at h
      · rw [if_neg h2] at h
        by_cases h3 : jsToLower (jsTrim (String.mk (tok.data.takeWhile (fun c => !(c == ':'))))) = ""
            ∨ jsToLower (jsTrim (String.mk vcs)) = ""
        · rw [if_pos h3] at h
          simp at h
        · rw [if_neg h3] at h
          rw [Option.some.injEq, Prod.mk.injEq] at h
          rw [← h.1, ← h.2]
          exact ⟨jsToLower_idem _, jsToLower_idem _⟩

/-- The validity condition stated by the claim for one attribute token: the
token contains the key/value separator colon, with non-empty text before the
first colon (the key) and non-empty text after it (the value). -/
def specAttrTokenValid (token : String) : Bool :=
  decide ((':' : Char) ∈ token.data) &&
    decide (token.data.takeWhile (fun c => !(c == ':')) ≠ []) &&
    decide ((token.data.dropWhile (fun c => !(c == ':'))).drop 1 ≠ [])

theorem attrTokenKV_isSome_iff (tok : String)
    (hws : ∀ c ∈ tok.data, isJsWhitespace c = false) :
    (attrTokenKV tok).isSome = specAttrTokenValid tok := by
  rcases hd : tok.data.dropWhile (fun c => !(c == ':')) with _ | ⟨c0, vcs⟩
  · rw [attrTokenKV_eq_none_of_no_colon tok hd]
    have hnc : ¬((':' : Char) ∈ tok.data) := by
      intro hc
      have hall : (fun c => !(c == ':')) ':' = true := by
        have hdw := List.dropWhile_eq_nil_iff.mp hd
        exact hdw ':' hc
      simp at hall
    unfold specAttrTokenValid
    simp [hnc]
  · have hc0 : (!(c0 == ':')) = false := dropWhile_head_false (fun c => !(c == ':')) tok.data c0 vcs hd
    have hc0e : c0 = ':' := by simpa using hc0
    have hmem : (':' : Char) ∈ tok.data := by
      have hin : c0 ∈ tok.data.dropWhile (fun c => !(c == ':')) := by
        rw [hd]
        exact List.mem_cons_self _ _
      have hin2 := mem_of_mem_dropWhile _ _ _ hin
      rw [hc0e] at hin2
      exact hin2
    rw [attrTokenKV_cons tok c0 vcs hd]
    unfold specAttrTokenValid
    rw [hd]
    by_cases h1 : tok.data.takeWhile (fun c => !(c == ':')) = []
    · rw [if_pos h1]
      simp [h1, hmem]
    · rw [if_neg h1]
      by_cases h2 : vcs = []
      · rw [if_pos h2]
        simp [h1, h2, hmem]
      · rw [if_neg h2]
        have hkey : jsToLower (jsTrim (String.mk (tok.data.takeWhile (fun c => !(c == ':'))))) ≠ "" := by
          apply jsToLower_ne_empty
          have hws2 : ∀ c ∈ (String.mk (tok.data.takeWhile (fun c => !(c == ':')))).data,
              isJsWhitespace c = false := by
            intro c hc
            exact hws c (mem_of_mem_takeWhile _ _ _ hc)
          rw [jsTrim_eq_self _ hws2]
          intro he
          exact h1 ((string_eq_empty_iff_data _).mp he)
        have hval : jsToLower (jsTrim (String.mk vcs)) ≠ "" := by
          apply jsToLower_ne_empty
          have hws2 : ∀ c ∈ (String.mk vcs).data, isJsWhitespace c = false := by
            intro c hc
            apply hws c
            apply mem_of_mem_dropWhile (fun c => !(c == ':')) tok.data
            rw [hd]
            exact List.mem_cons_of_mem _ hc
          rw [jsTrim_eq_self _ hws2]
          intro he
          exact h2 ((string_eq_empty_iff_data _).mp he)
        rw [if_neg (by tauto)]
        simp [h1, h2, hmem]

theorem mem_attrInsert (m : List (String × List String)) (key value : String) :
    ∀ kv ∈ attrInsert m key value,
      kv ∈ m ∨ kv.1 = key ∧ (kv.2 = [value] ∨ ∃ vs, kv.2 = vs ++ [value] ∧ (key, vs) ∈ m) := by
  induction m with
  | nil =>
    intro kv h
    rw [attrInsert] at h
    rcases List.mem_cons.mp h with he | hm
    · subst he
      exact Or.inr ⟨rfl, Or.inl rfl⟩
    · simp at hm
  | cons p rest ih =>
    obtain ⟨k0, vs0⟩ := p
    intro kv h
    rw [attrInsert] at h
    by_cases hk : k0 = key
    · rw [if_pos hk] at h
      rcases List.mem_cons.mp h with he | hm
      · subst he
        refine Or.inr ⟨hk, Or.inr ⟨vs0, rfl, ?_⟩⟩
        rw [← hk]
        exact List.mem_cons_self _ _
      · exact Or.inl (List.mem_cons_of_mem _ hm)
    · rw [if_neg hk] at h
      rcases List.mem_cons.mp h with he | hm
      · subst he
        exact Or.inl (List.mem_cons_self _ _)
      · rcases ih kv hm with h1 | ⟨h2, h3⟩
        · exact Or.inl (List.mem_cons_of_mem _ h1)
        · refine Or.inr ⟨h2, ?_⟩
          rcases h3 with h3 | ⟨vs, hv, hmemv⟩
          · exact Or.inl h3
          · exact Or.inr ⟨vs, hv, List.mem_cons_of_mem _ hmemv⟩

theorem attr_foldl_lower (l : List String) :
    ∀ (st : AttributeParseResult),
      (∀ kv ∈ st.attributes, jsToLower kv.1 = kv.1 ∧ ∀ v ∈ kv.2, jsToLower v = v) →
      ∀ kv ∈ (l.foldl attrStep st).attributes,
        jsToLower kv.1 = kv.1 ∧ ∀ v ∈ kv.2, jsToLower v = v := by
  induction l with
  | nil =>
    intro st hst
    exact hst
  | cons t rest ih =>
    intro st hst
    rw [List.foldl_cons]
    apply ih
    rcases ht : attrTokenKV t with _ | ⟨key, value⟩
    · simp only [attrStep, ht]
      exact hst
    · simp only [attrStep, ht]
      by_cases hdup : value ∈ lookupValues st.attributes key
      · rw [if_pos hdup]
        exact hst
      · rw [if_neg hdup]
        intro kv hkv
        have hlow := attrTokenKV_lower t key value ht
        rcases mem_attrInsert st.attributes key value kv hkv with h1 | ⟨h2, h3⟩
        · exact hst kv h1
        · constructor
          · rw [h2]
            exact hlow.1
          · intro v hv
            rcases h3 with h3 | ⟨vs, hvs, hmemv⟩
            · rw [h3] at hv
              simp at hv
              rw [hv]
              exact hlow.2
            · rw [hvs] at hv
              rcases List.mem_append.mp hv with hv1 | hv2
              · exact (hst (key, vs) hmemv).2 v hv1
              · simp at hv2
                rw [hv2]
                exact hlow.2

/-! ## Claims about the attribute parser -/

/-- JavaScript object assignment on a `Record<string, string>`:
`obj[key] = value` overwrites any previous value of the key. -/
def recordStrSet : List (String × String) → String → String → List (String × String)
  | [], key, value => [(key, value)]
  | (k0, v0) :: rest, key, value =>
    if k0 = key then (k0, value) :: rest else (k0, v0) :: recordStrSet rest key value

/-- Modelled from the spec: the Media Walker folds `KeyValue` tags into the
`attributes` field of a media record. The fold itself is not part of the
frontend sources, but the source type `MediaSummary` (types/media.ts) declares
`attributes: Record<string, string>`, so each key of a media record holds a
single string and folding a `KeyValue` tag can only assign
`attributes[key] = value`. -/
def mediaSummaryAttributesOfTags (tags : List (String × String)) : List (String × String) :=
  tags.foldl (fun m kv => recordStrSet m kv.1 kv.2) []

/-- C3 counterexample: the attribute map of the `MediaSummary` type is
single-valued, so a file tagged with rating 5 and then rating 3 keeps only the
value 3; the program attribute maps are therefore not all list-valued. -/
theorem C3_counterexample :
    mediaSummaryAttributesOfTags [("rating", "5"), ("rating", "3")] = [("rating", "3")] := by
  decide

/-- C3 (amended): the attribute parser `parseAttributeInput` preserves all
values per key as a list: a value is stored for a key exactly when some input
token parses to that key/value pair, so when the same key appears with several
distinct values every one of them is kept, not only the last; the `MediaSummary`
type, however, declares a single-value-per-key attribute map. -/
theorem C3_parseAttributeInput_list_valued (raw k v : String) :
    v ∈ lookupValues (parseAttributeInput raw).attributes k ↔
      ∃ tok ∈ attrTokens raw, attrTokenKV tok = some (k, v) :=
  mem_lookupValues_parseAttributeInput raw k v

/-- Witness for C3: the input `"rating:5,rating:3"` keeps both values of the
key `rating` in the parser result. -/
theorem C3_witness :
    "5" ∈ lookupValues (parseAttributeInput "rating:5,rating:3").attributes "rating" ∧
    "3" ∈ lookupValues (parseAttributeInput "rating:5,rating:3").attributes "rating" := by
  constructor
  · exact (C3_parseAttributeInput_list_valued "rating:5,rating:3" "rating" "5").mpr
      ⟨"rating:5", by decide, by decide⟩
  · exact (C3_parseAttributeInput_list_valued "rating:5,rating:3" "rating" "3").mpr
      ⟨"rating:3", by decide, by decide⟩

/-- C4: a token given to the attribute parser yields a key/value entry in the
attributes map if and only if it contains the colon separator with non-empty
key text before the first colon and non-empty value text after it; every other
token yields no pair and is reported in the `invalid` list, and the `invalid`
list reports only such tokens. -/
theorem C4_attrToken_valid_iff_entry (raw tok : String) (hmem : tok ∈ attrTokens raw) :
    (specAttrTokenValid tok = true →
      ∃ k v, attrTokenKV tok = some (k, v) ∧
        v ∈ lookupValues (parseAttributeInput raw).attributes k) ∧
    (specAttrTokenValid tok = false →
      attrTokenKV tok = none ∧ tok ∈ (parseAttributeInput raw).invalid) ∧
    (tok ∈ (parseAttributeInput raw).invalid → specAttrTokenValid tok = false) := by
  have hws := mem_attrTokens_no_ws raw tok hmem
  have hbr := attrTokenKV_isSome_iff tok hws
  refine ⟨?_, ?_, ?_⟩
  · intro hv
    rw [hv] at hbr
    rcases Option.isSome_iff_exists.mp hbr with ⟨⟨k, v⟩, hkv⟩
    exact ⟨k, v, hkv, (mem_lookupValues_parseAttributeInput raw k v).mpr ⟨tok, hmem, hkv⟩⟩
  · intro hv
    rw [hv] at hbr
    have hn : attrTokenKV tok = none := by
      rcases h : attrTokenKV tok with _ | x
      · rfl
      · rw [h] at hbr
        simp at hbr
    exact ⟨hn, (mem_invalid_parseAttributeInput raw tok).mpr ⟨hmem, hn⟩⟩
  · intro hinv
    have hn := ((mem_invalid_parseAttributeInput raw tok).mp hinv).2
    rw [hn] at hbr
    simp only [Option.isSome_none] at hbr
    exact hbr.symm

/-- Witness for C4: in the concrete input `"rating:5,bad"` the token `"bad"`
has no colon and lands in the invalid list. -/
theorem C4_witness : "bad" ∈ (parseAttributeInput "rating:5,bad").invalid :=
  ((C4_attrToken_valid_iff_entry "rating:5,bad" "bad" (by decide)).2.1 (by decide)).2

/-- C5: every tag string returned by `parseTagInput` and every attribute key
and value returned by `parseAttributeInput` equals its own lowercase image. -/
theorem C5_outputs_lowercase (rawTag rawAttr : String) :
    (∀ t ∈ parseTagInput rawTag, jsToLower t = t) ∧
    (∀ kv ∈ (parseAttributeInput rawAttr).attributes,
      jsToLower kv.1 = kv.1 ∧ ∀ v ∈ kv.2, jsToLower v = v) := by
  constructor
  · intro t ht
    rw [parseTagInput_eq_dedupFirst, mem_dedupFirst] at ht
    rcases List.mem_map.mp (List.mem_filter.mp ht).1 with ⟨seg, _, he⟩
    rw [← he]
    unfold normalizeTagToken
    exact jsToLower_idem _
  · unfold parseAttributeInput
    by_cases h : rawAttr = ""
    · rw [if_pos h]
      intro kv hkv
      simp at hkv
    · rw [if_neg h]
      apply attr_foldl_lower
      intro kv hkv
      simp at hkv

/-- Witness for C5: the uppercase input segment `"AB"` comes out as the
lowercase tag `"ab"`, which is a fixed point of lowercasing. -/
theorem C5_witness : jsToLower "ab" = "ab" :=
  (C5_outputs_lowercase "AB" "x:y").1 "ab" (by decide)

/-! ## The media search client (`fetchMedia`, frontend api client) -/

/-- `MediaSearchRequest` from the api client: every field is optional.
JavaScript numbers are modelled as `Nat` (the claims only concern presence and
defaults of the serialized values). -/
structure MediaSearchRequest where
  tags : Option (List String)
  attributes : Option (List (String × List String))
  page : Option Nat
  pageSize : Option Nat

/-- The query parameters built by `fetchMedia` (lines 21 to 31), in insertion
order: `page` (defaulted to 1 by `??`), `pageSize` (defaulted to 60), the
comma-joined `tags` parameter when the tag list is present and non-empty, then
one `attributes[key]` parameter per entry of the attributes record whose value
list is non-empty. All parameter names are distinct, so `URLSearchParams.set`
appends a fresh pair each time. -/
def fetchMediaParams (req : MediaSearchRequest) : List (String × String) :=
  let base := [("page", toString (req.page.getD 1)), ("pageSize", toString (req.pageSize.getD 60))]
  let withTags :=
    match req.tags with
    | some ts => if ts.length > 0 then base ++ [("tags", String.intercalate "," ts)] else base
    | none => base
  (req.attributes.getD []).foldl
    (fun ps kv =>
      if kv.2.length = 0 then ps
      else ps ++ [("attributes[" ++ kv.1 ++ "]", String.intercalate "," kv.2)])
    withTags

/-- The serialization stated by the claim, written from its words: page or 1,
pageSize or 60, a single comma-joined tags parameter exactly when at least one
tag is given, one `attributes[key]` parameter per key with comma-joined values,
keys with an empty value list omitted. -/
def specMediaQuery (req : MediaSearchRequest) : List (String × String) :=
  [("page", toString (req.page.getD 1)), ("pageSize", toString (req.pageSize.getD 60))]
    ++ (if req.tags.getD [] = [] then []
        else [("tags", String.intercalate "," (req.tags.getD []))])
    ++ (req.attributes.getD []).filterMap
        (fun kv =>
          if kv.2 = [] then none
          else some ("attributes[" ++ kv.1 ++ "]", String.intercalate "," kv.2))

theorem attrParams_foldl (l : List (String × List String)) :
    ∀ (init : List (String × String)),
      l.foldl (fun ps kv =>
        if kv.2.length = 0 then ps
        else ps ++ [("attributes[" ++ kv.1 ++ "]", String.intercalate "," kv.2)]) init =
      init ++ l.filterMap (fun kv =>
        if kv.2 = [] then none
        else some ("attributes[" ++ kv.1 ++ "]", String.intercalate "," kv.2)) := by
  induction l with
  | nil =>
    intro init
    simp
  | cons kv rest ih =>
    intro init
    rw [List.foldl_cons, List.filterMap_cons]
    by_cases h : kv.2 = []
    · have hl : kv.2.length = 0 := by
        rw [h]
        rfl
      rw [if_pos hl, if_pos h]
      exact ih init
    · have hl : ¬(kv.2.length = 0) := fun h0 => h (List.eq_nil_of_length_eq_zero h0)
      have hsome : (if kv.2 = [] then none
          else some ("attributes[" ++ kv.1 ++ "]", String.intercalate "," kv.2)) =
          some ("attributes[" ++ kv.1 ++ "]", String.intercalate "," kv.2) := if_neg h
      rw [if_neg hl, hsome, ih, List.append_assoc, List.singleton_append]

/-- C6: for every search request, `fetchMedia` serializes the query with page
defaulting to 1, pageSize defaulting to 60, one comma-joined `tags` parameter
exactly when at least one tag is given, and one `attributes[key]` parameter per
key with comma-joined values where keys with an empty value list are omitted. -/
theorem C6_fetchMedia_query (req : MediaSearchRequest) :
    fetchMediaParams req = specMediaQuery req := by
  unfold fetchMediaParams specMediaQuery
  rw [attrParams_foldl]
  congr 1
  rcases ht : req.tags with _ | ts
  · simp
  · simp only [Option.getD_some]
    by_cases hts : ts = []
    · subst hts
      simp
    · have hlen : ts.length > 0 := List.length_pos.mpr hts
      rw [if_pos hlen, if_neg hts]

/-- Witness for C6: a concrete request with a default page, an explicit
pageSize, two tags, one attribute key with two values and one with none. -/
theorem C6_witness :
    fetchMediaParams
        { tags := some ["a", "b"], attributes := some [("rating", ["5", "4"]), ("x", [])],
          page := none, pageSize := some 20 } =
      [("page", "1"), ("pageSize", "20"), ("tags", "a,b"), ("attributes[rating]", "5,4")] := by
  rw [C6_fetchMedia_query]
  decide

/-! ## Persisted search filters (`usePersistedFilters`, lines 11 to 32) -/

/-- A JSON value, as produced by `JSON.parse`. -/
inductive Json where
  | null
  | bool (b : Bool)
  | num (n : Int)
  | str (s : String)
  | arr (elems : List Json)
  | obj (fields : List (String × Json))

/-- Property access `j["name"]` on a parsed JSON value: only objects have
fields; `JSON.parse` keeps the last occurrence of a duplicated key, hence the
reverse lookup. A missing field is JavaScript `undefined`, modelled `none`. -/
def jsonField : Json → String → Option Json
  | Json.obj fields, key => (fields.reverse).lookup key
  | _, _ => none

/-- JavaScript truthiness of a parsed JSON value. -/
def jsTruthy : Json → Bool
  | Json.null => false
  | Json.bool b => b
  | Json.num n => decide (n ≠ 0)
  | Json.str s => decide (s ≠ "")
  | Json.arr _ => true
  | Json.obj _ => true

/-- Truthiness of a possibly missing field (`undefined` is falsy). -/
def jsTruthyOpt : Option Json → Bool
  | none => false
  | some j => jsTruthy j

/-- Whether `typeof field === "string"` holds. -/
def jsTypeofIsStringOpt : Option Json → Bool
  | some (Json.str _) => true
  | _ => false

/-- Whether `typeof field === "object"` holds: objects, arrays, and `null` all
have typeof `object`; `undefined` and the primitives do not. -/
def jsTypeofIsObjectOpt : Option Json → Bool
  | some Json.null => true
  | some (Json.arr _) => true
  | some (Json.obj _) => true
  | _ => false

/-- The string content of a field known to be a string. -/
def jsonStrValue : Option Json → String
  | some (Json.str s) => s
  | _ => ""

/-- The runtime shape of the persisted filters: the declared type says
`attributes: Record<string, string[]>`, but the loader only checks
`typeof === "object"`, so the attributes field is kept as the JSON value that
was actually stored. -/
structure PersistedFiltersJ where
  tags : String
  attributes : Json

/-- What `sessionStorage.getItem` plus `JSON.parse` produced: `absent` models a
missing entry or the empty string (`!raw`), `corrupt` a `JSON.parse` throw
(the `catch` returns the default; the `catch` also covers the property access
throw on a parsed `null`, which `jsonField` models by returning `none`). -/
inductive StoredValue where
  | absent
  | corrupt
  | parsed (j : Json)

/-- The `useState` initializer of `usePersistedFilters` as a pure function of
the stored value: the guards are exactly the source lines
`if (!raw) return defaultValue`,
`if (!parsed.tags || typeof parsed.tags !== "string") return defaultValue` and
`if (!parsed.attributes || typeof parsed.attributes !== "object") return
defaultValue`. -/
def loadPersistedFilters (stored : StoredValue) (defaultValue : PersistedFiltersJ) :
    PersistedFiltersJ :=
  match stored with
  | StoredValue.absent => defaultValue
  | StoredValue.corrupt => defaultValue
  | StoredValue.parsed j =>
    if jsTruthyOpt (jsonField j "tags") = false then defaultValue
    else if jsTypeofIsStringOpt (jsonField j "tags") = false then defaultValue
    else if jsTruthyOpt (jsonField j "attributes") = false then defaultValue
    else if jsTypeofIsObjectOpt (jsonField j "attributes") = false then defaultValue
    else { tags := jsonStrValue (jsonField j "tags"),
           attributes := (jsonField j "attributes").getD Json.null }

/-- The usability condition of the amended claim: the stored entry parsed to a
JSON value whose `tags` field is a non-empty string and whose `attributes`
field is a non-null value of object type (an object or an array). -/
def storedFiltersUsable : StoredValue → Bool
  | StoredValue.parsed j =>
    (match jsonField j "tags" with
     | some (Json.str s) => decide (s ≠ "")
     | _ => false) &&
    (match jsonField j "attributes" with
     | some (Json.arr _) => true
     | some (Json.obj _) => true
     | _ => false)
  | _ => false

/-- The tags a usable stored value carries. -/
def storedTags : StoredValue → String
  | StoredValue.parsed j => jsonStrValue (jsonField j "tags")
  | _ => ""

/-- The attributes a usable stored value carries. -/
def storedAttributes : StoredValue → Json
  | StoredValue.parsed j => (jsonField j "attributes").getD Json.null
  | _ => Json.null

/-- C7 counterexample: a stored entry whose `tags` field is the empty string,
which is a string, and whose `attributes` field is an object, is still treated
as a cache miss: the default filters come back, not the stored tags. -/
theorem C7_counterexample :
    loadPersistedFilters
        (StoredValue.parsed (Json.obj [("tags", Json.str ""), ("attributes", Json.obj [])]))
        { tags := "default", attributes := Json.null } =
      { tags := "default", attributes := Json.null } ∧ ("" : String) ≠ "default" :=
  ⟨rfl, by decide⟩

/-- C7 (amended): loading persisted filters never throws (the loader is a total
function) and returns the stored tags and attributes exactly when the stored
entry is present, parses, has a `tags` field that is a non-empty string, and
has a truthy `attributes` field of object type; in every other case, including
an empty-string `tags` field, the supplied default filters are returned. -/
theorem C7_loadPersistedFilters_fallback (stored : StoredValue)
    (defaultValue : PersistedFiltersJ) :
    loadPersistedFilters stored defaultValue =
      if storedFiltersUsable stored = true
      then { tags := storedTags stored, attributes := storedAttributes stored }
      else defaultValue := by
  cases stored with
  | absent => simp [loadPersistedFilters, storedFiltersUsable]
  | corrupt => simp [loadPersistedFilters, storedFiltersUsable]
  | parsed j =>
    rcases hT : jsonField j "tags" with _ | jt
    · simp [loadPersistedFilters, storedFiltersUsable, hT, jsTruthyOpt]
    · cases jt with
      | str s =>
        by_cases hs : s = ""
        · subst hs
          simp [loadPersistedFilters, storedFiltersUsable, hT, jsTruthyOpt, jsTruthy]
        · rcases hA : jsonField j "attributes" with _ | ja
          · simp [loadPersistedFilters, storedFiltersUsable, hT, hA, jsTruthyOpt, jsTruthy,
              jsTypeofIsStringOpt, jsTypeofIsObjectOpt, hs]
          · cases ja <;>
              simp [loadPersistedFilters, storedFiltersUsable, storedTags, storedAttributes,
                hT, hA, jsTruthyOpt, jsTruthy, jsTypeofIsStringOpt, jsTypeofIsObjectOpt, hs,
                jsonStrValue]
      | null => simp [loadPersistedFilters, storedFiltersUsable, hT, jsTruthyOpt, jsTruthy]
      | bool b =>
        cases b <;>
          simp [loadPersistedFilters, storedFiltersUsable, hT, jsTruthyOpt, jsTruthy,
            jsTypeofIsStringOpt]
      | num n =>
        simp [loadPersistedFilters, storedFiltersUsable, hT, jsTruthyOpt, jsTruthy,
          jsTypeofIsStringOpt]
      | arr elems =>
        simp [loadPersistedFilters, storedFiltersUsable, hT, jsTruthyOpt, jsTruthy,
          jsTypeofIsStringOpt]
      | obj fields =>
        simp [loadPersistedFilters, storedFiltersUsable, hT, jsTruthyOpt, jsTruthy,
          jsTypeofIsStringOpt]

/-- Witness for C7: a usable stored entry comes back as stored. -/
theorem C7_witness :
    loadPersistedFilters
        (StoredValue.parsed (Json.obj [("tags", Json.str "a"), ("attributes", Json.obj [])]))
        { tags := "d", attributes := Json.null } =
      { tags := "a", attributes := Json.obj [] } := by
  rw [C7_loadPersistedFilters_fallback]
  rfl

/-! ## Media url helpers (`mediaUrls.ts`) -/

theorem string_append_empty (s : String) : s ++ "" = s := by
  rcases s with ⟨d⟩
  show String.mk (d ++ []) = String.mk d
  rw [List.append_nil]

theorem string_append_assoc (a b c : String) : a ++ b ++ c = a ++ (b ++ c) := by
  rcases a with ⟨da⟩
  rcases b with ⟨db⟩
  rcases c with ⟨dc⟩
  show String.mk (da ++ db ++ dc) = String.mk (da ++ (db ++ dc))
  rw [List.append_assoc]

/-- The stream disposition union type from mediaUrls.ts. -/
inductive StreamDisposition where
  | inline
  | attachment
deriving DecidableEq, Repr

/-- The string a disposition interpolates to. -/
def dispositionString : StreamDisposition → String
  | StreamDisposition.inline => "inline"
  | StreamDisposition.attachment => "attachment"

/-- One hexadecimal digit, uppercase, as used by percent encoding. -/
def uriHexDigit (n : Nat) : Char :=
  if n < 10 then Char.ofNat (48 + n) else Char.ofNat (55 + n)

/-- Percent encoding of one byte: a percent sign and two uppercase hex digits. -/
def percentEncodeByte (b : Nat) : List Char :=
  ['%', uriHexDigit (b / 16), uriHexDigit (b % 16)]

/-- The UTF-8 bytes of one character. -/
def utf8Bytes (c : Char) : List Nat :=
  let n := c.toNat
  if n < 128 then [n]
  else if n < 2048 then [192 + n / 64, 128 + n % 64]
  else if n < 65536 then [224 + n / 4096, 128 + (n / 64) % 64, 128 + n % 64]
  else [240 + n / 262144, 128 + (n / 4096) % 64, 128 + (n / 64) % 64, 128 + n % 64]

/-- The characters `encodeURIComponent` leaves as they are: ASCII letters and
digits and the marks minus underscore dot exclamation tilde asterisk quote and
the parentheses. -/
def isUriUnreserved (c : Char) : Bool :=
  isTagAlphanumeric c ||
    ([Char.ofNat 45, Char.ofNat 95, Char.ofNat 46, Char.ofNat 33, Char.ofNat 126,
      Char.ofNat 42, Char.ofNat 39, Char.ofNat 40, Char.ofNat 41].contains c)

/-- JavaScript `encodeURIComponent`: unreserved characters pass through, every
other character becomes the percent encoding of its UTF-8 bytes. -/
def encodeURIComponent (s : String) : String :=
  String.mk ((s.data.map (fun c =>
    if isUriUnreserved c then [c]
    else ((utf8Bytes c).map percentEncodeByte).flatten)).flatten)

/-- JavaScript `String.prototype.startsWith`. -/
def jsStartsWith (s t : String) : Bool :=
  decide (s.data.take t.data.length = t.data)

/-- `apiBaseUrl.replace(/\/$/, "")`: remove one trailing slash when present. -/
def stripTrailingSlash (s : String) : String :=
  if s.data.getLast? = some '/' then String.mk (s.data.take (s.data.length - 1)) else s

/-- `resolveStreamUrl` from mediaUrls.ts lines 3 to 17. -/
def resolveStreamUrl (apiBaseUrl mediaId : String) (disposition : StreamDisposition) : String :=
  let normalizedBase := stripTrailingSlash apiBaseUrl
  let encodedId := encodeURIComponent mediaId
  let baseUrl := normalizedBase ++ "/media/" ++ encodedId ++ "/stream"
  if disposition = StreamDisposition.inline then baseUrl
  else baseUrl ++ "?disposition=" ++ dispositionString disposition

/-- C9: for every base url, media id and disposition, `resolveStreamUrl`
returns the base with a trailing slash removed, then `/media/`, then the
percent-encoded media id, then `/stream`, with the query string
`?disposition=attachment` appended exactly for the attachment disposition and
nothing appended for the default inline disposition. -/
theorem C9_resolveStreamUrl_shape (apiBaseUrl mediaId : String)
    (disposition : StreamDisposition) :
    resolveStreamUrl apiBaseUrl mediaId disposition =
      stripTrailingSlash apiBaseUrl ++ "/media/" ++ encodeURIComponent mediaId ++ "/stream" ++
        (match disposition with
         | StreamDisposition.inline => ""
         | StreamDisposition.attachment => "?disposition=attachment") := by
  cases disposition with
  | inline =>
    unfold resolveStreamUrl
    rw [if_pos rfl]
    rw [string_append_empty]
  | attachment =>
    unfold resolveStreamUrl
    rw [if_neg (by decide)]
    rw [show dispositionString StreamDisposition.attachment = "attachment" from rfl]
    rw [string_append_assoc]
    rfl

/-- The placeholder image url of `resolveThumbnailUrl`. -/
def placeholderThumbnailUrl : String :=
  "https://placehold.co/320x200?text=Media"

/-- `resolveThumbnailUrl` from mediaUrls.ts lines 19 to 28: `!path` covers a
missing path and the empty string. -/
def resolveThumbnailUrl (path : Option String) (apiBaseUrl : String) : String :=
  if path.getD "" = "" then placeholderThumbnailUrl
  else if jsStartsWith (path.getD "") "http" then path.getD ""
  else stripTrailingSlash apiBaseUrl ++ path.getD ""

/-- C10: `resolveThumbnailUrl` returns the fixed placeholder exactly when the
path is missing or empty, the path unchanged when it starts with `http`, and
otherwise the base with a trailing slash stripped concatenated with the path. -/
theorem C10_resolveThumbnailUrl_shape (path : Option String) (apiBaseUrl : String) :
    resolveThumbnailUrl path apiBaseUrl =
      match path with
      | none => placeholderThumbnailUrl
      | some p =>
        if p = "" then placeholderThumbnailUrl
        else if jsStartsWith p "http" then p
        else stripTrailingSlash apiBaseUrl ++ p := by
  cases path with
  | none => rfl
  | some p =>
    by_cases hp : p = ""
    · subst hp
      rfl
    · unfold resolveThumbnailUrl
      simp only [Option.getD_some]

/-- Witness for C9: the attachment url of the source unit test. -/
theorem C9_witness :
    resolveStreamUrl "http://localhost:8080/api/v1/" "abc" StreamDisposition.attachment =
      "http://localhost:8080/api/v1/media/abc/stream?disposition=attachment" := by
  rw [C9_resolveStreamUrl_shape]
  decide

/-- Witness for C10: the relative thumbnail url of the source unit test. -/
theorem C10_witness :
    resolveThumbnailUrl (some "/media/abc/thumbnail") "http://localhost/api/" =
      "http://localhost/api/media/abc/thumbnail" := by
  rw [C10_resolveThumbnailUrl_shape]
  decide
